import Mathlib

/-!
A shallow embedding of the `AsyncPool` worker pool (`src/app/AsyncPool.py`).

The pool runs on a single-threaded cooperative event loop, so each
synchronous code segment between two `await` suspension points executes
atomically.  We model the system as a labelled transition system whose
atomic steps are exactly those segments:

* `Act.push t1 t2 payload` — one call to `AsyncPool.push`.  The two
  integers are the values returned by the two `self._time()` reads inside
  the call (the first one is only consumed when `_first_push_dt` is still
  unset); both reads must be at or after the last observed clock value
  (`datetime.utcnow` is modelled as monotone).  A push that would block in
  `await self._queue.put(...)` is modelled as a disabled step (the step
  function returns `none` until a slot is free).
* `Act.start` — `AsyncPool.start` (enabled only when `_workers is None`,
  mirroring the `assert`).
* `Act.workerGet i` — worker `i` returns from `await self._queue.get()`
  and runs up to the next suspension point: on a `Terminator` it breaks
  out of the loop, which still executes the `finally` block
  (`_active_workers -= 1`; `task_done`); on a real item it increments
  `_active_workers` and starts awaiting the wrapped coroutine.
* `Act.workerOk i v` / `Act.workerErr i f` / `Act.workerSig i sg` — the
  awaited `asyncio.wait_for(self._worker_co(...))` of worker `i` finishes
  with a result, with an ordinary failure (including the
  `asyncio.TimeoutError` produced by `wait_for`), or with one of
  `KeyboardInterrupt`/`MemoryError`/`SystemExit`.  The step performs the
  corresponding `except` handler and the `finally` block.
* `Act.joinCall` / `Act.joinPut` / `Act.joinFinish` — `AsyncPool.join`:
  the initial `if not self._workers: return` check, each
  `await self._queue.put(Terminator())` of the enqueue loop, and the
  return of `await asyncio.gather(*self._workers)` once every worker task
  has completed (normally or with a re-raised unrecoverable signal).

The channel is an `asyncio.Queue(num_workers * load_factor)`, so a
capacity of `0` means an unbounded queue (asyncio semantics: a maxsize
that is not positive never reports the queue as full).  Timestamps and
durations are integers; the payload of a work item and result values are
opaque and modelled as natural numbers.  `loggedFailures` counts calls to
`self._logger.exception("Worker call failed")` from the worker loop, and
`tasksDone` counts calls to `self._queue.task_done()`.
-/

namespace AsyncPool

/-- The unrecoverable signals listed in the first `except` clause of
`_worker_loop`: `KeyboardInterrupt`, `MemoryError`, `SystemExit`. -/
inductive Sig
| keyboardInterrupt
| memoryError
| systemExit
deriving DecidableEq

/-- A failure raised out of `self._worker_co(*args, **kwargs)` under
`asyncio.wait_for`: the timeout produced by `wait_for`, an ordinary
exception (identified by an opaque code), or an unrecoverable signal. -/
inductive Failure
| timeout
| taskError (code : ℕ)
| signal (sg : Sig)
deriving DecidableEq

/-- Whether a failure is one of the unrecoverable signals. -/
def Failure.isSignal : Failure → Bool
| .signal _ => true
| _ => false

/-- The state of one `asyncio.futures.Future` created by `push`. -/
inductive FutureSt
| pending
| done (v : ℕ)
| failed (f : Failure)
deriving DecidableEq

/-- An entry of the channel: the `Terminator` sentinel, or a real work
item `(future, args, kwargs)`; the future is an index into the future
arena and the opaque payload stands for the argument tuple. -/
inductive QItem
| term
| item (fut : Option ℕ) (payload : ℕ)
deriving DecidableEq

/-- The state of one worker task spawned by `start`: blocked in
`queue.get()`, awaiting the wrapped coroutine for a dequeued item,
exited normally after dequeuing a `Terminator`, or terminated by a
re-raised unrecoverable signal. -/
inductive WorkerSt
| idle
| busy (fut : Option ℕ) (payload : ℕ)
| retired
| dead (sg : Sig)
deriving DecidableEq

/-- The control state of a `join` call in progress: `joining k` means the
enqueue loop still has `k` `Terminator` puts to perform; `joining 0` means
the call is blocked in `asyncio.gather(*self._workers)`. -/
inductive CtrlSt
| idle
| joining (k : ℕ)
deriving DecidableEq

/-- The mutable state of one `AsyncPool` object together with its
immutable configuration (the constructor arguments). -/
structure PoolState where
  numWorkers : ℕ
  loadFactor : ℕ
  jobAcceptDuration : Option ℤ
  returnFutures : Bool
  raiseOnJoin : Bool
  queue : List QItem
  workers : Option (List WorkerSt)
  exceptions : Bool
  firstPushDt : Option ℤ
  totalQueued : ℕ
  activeWorkers : ℤ
  clock : ℤ
  futures : List FutureSt
  loggedFailures : ℕ
  tasksDone : ℕ
  ctrl : CtrlSt
deriving DecidableEq

/-- The observable outcome of the step: the value returned or the
exception raised by the public call that the step completes. -/
inductive Obs
| silent
| pushed (fut : Option ℕ)
| pushRaised
| joined
| joinRaisedAggregate
| joinRaisedSignal (sg : Sig)
deriving DecidableEq

/-- `self._queue = asyncio.Queue(num_workers * load_factor)`. -/
def capacity (s : PoolState) : ℕ := s.numWorkers * s.loadFactor

/-- `asyncio.Queue.full()`: a queue built with a maxsize that is not
positive is never full; otherwise the queue is full when it holds at
least `maxsize` entries. -/
def queueFull (s : PoolState) : Bool :=
  decide (capacity s ≠ 0 ∧ capacity s ≤ s.queue.length)

/-- The state right after `AsyncPool.__init__`. -/
def init (numWorkers loadFactor : ℕ) (jobAcceptDuration : Option ℤ)
    (returnFutures raiseOnJoin : Bool) : PoolState :=
  { numWorkers := numWorkers
    loadFactor := loadFactor
    jobAcceptDuration := jobAcceptDuration
    returnFutures := returnFutures
    raiseOnJoin := raiseOnJoin
    queue := []
    workers := none
    exceptions := false
    firstPushDt := none
    totalQueued := 0
    activeWorkers := 0
    clock := 0
    futures := []
    loggedFailures := 0
    tasksDone := 0
    ctrl := .idle }

/-- The tail of `push` after the acceptance-window guard: create the
future when `return_futures` is set, enqueue the item, bump
`_total_queued`.  Disabled (`none`) while the queue is full, because
`await self._queue.put(...)` would suspend. -/
def pushEnqueue (s : PoolState) (payload : ℕ) : Option (PoolState × Obs) :=
  if queueFull s then none
  else
    let fut : Option ℕ := if s.returnFutures then some s.futures.length else none
    some ({ s with
              futures := if s.returnFutures then s.futures ++ [.pending] else s.futures
              queue := s.queue ++ [.item fut payload]
              totalQueued := s.totalQueued + 1 },
          .pushed fut)

/-- `AsyncPool.push`: record `_first_push_dt` on the first call (clock
read `t1`), then compare the second clock read `t2` against the
acceptance window and raise `TimeoutError` when it is exceeded, else
enqueue.  The guard `s.clock ≤ t1 ≤ t2` keeps the modelled clock
monotone. -/
def push (s : PoolState) (t1 t2 : ℤ) (payload : ℕ) : Option (PoolState × Obs) :=
  if t1 < s.clock ∨ t2 < t1 then none
  else
    let first := s.firstPushDt.getD t1
    let s1 := { s with firstPushDt := some first, clock := t2 }
    match s.jobAcceptDuration with
    | some w => if w < t2 - first then some (s1, .pushRaised) else pushEnqueue s1 payload
    | none => pushEnqueue s1 payload

/-- `AsyncPool.start`: `assert self._workers is None`, clear
`_exceptions`, spawn `num_workers` worker tasks. -/
def start (s : PoolState) : Option (PoolState × Obs) :=
  match s.workers with
  | none =>
      some ({ s with
                exceptions := false
                workers := some (List.replicate s.numWorkers .idle) },
            .silent)
  | some _ => none

/-- Worker `i` returns from `await self._queue.get()`.  A `Terminator`
breaks out of the loop; the `finally` block still runs, decrementing
`_active_workers` and acknowledging the item.  A real item increments
`_active_workers` and leaves the worker awaiting the wrapped coroutine. -/
def workerGet (s : PoolState) (i : ℕ) : Option (PoolState × Obs) :=
  match s.workers with
  | none => none
  | some ws =>
    match ws[i]? with
    | some .idle =>
      match s.queue with
      | [] => none
      | .term :: rest =>
          some ({ s with
                    queue := rest
                    workers := some (ws.set i .retired)
                    activeWorkers := s.activeWorkers - 1
                    tasksDone := s.tasksDone + 1 },
                .silent)
      | .item fut payload :: rest =>
          some ({ s with
                    queue := rest
                    workers := some (ws.set i (.busy fut payload))
                    activeWorkers := s.activeWorkers + 1 },
                .silent)
    | _ => none

/-- `future.set_result` / `future.set_exception` on the optional future
of an item (`if future: ...`). -/
def resolveFut (futures : List FutureSt) (fut : Option ℕ) (r : FutureSt) :
    List FutureSt :=
  match fut with
  | none => futures
  | some j => futures.set j r

/-- The wrapped coroutine of worker `i` returns `v`: set the result on
the future when present, then run the `finally` block and loop. -/
def workerOk (s : PoolState) (i : ℕ) (v : ℕ) : Option (PoolState × Obs) :=
  match s.workers with
  | none => none
  | some ws =>
    match ws[i]? with
    | some (.busy fut _) =>
        some ({ s with
                  futures := resolveFut s.futures fut (.done v)
                  workers := some (ws.set i .idle)
                  activeWorkers := s.activeWorkers - 1
                  tasksDone := s.tasksDone + 1 },
              .silent)
    | _ => none

/-- The wrapped coroutine of worker `i` raises an ordinary failure `f`
(not an unrecoverable signal): set `_exceptions`, then either deliver the
failure through the future or log it — never both — and run the
`finally` block. -/
def workerErr (s : PoolState) (i : ℕ) (f : Failure) : Option (PoolState × Obs) :=
  if f.isSignal then none
  else
    match s.workers with
    | none => none
    | some ws =>
      match ws[i]? with
      | some (.busy fut _) =>
          some ({ s with
                    exceptions := true
                    futures := resolveFut s.futures fut (.failed f)
                    loggedFailures :=
                      if fut = none then s.loggedFailures + 1 else s.loggedFailures
                    workers := some (ws.set i .idle)
                    activeWorkers := s.activeWorkers - 1
                    tasksDone := s.tasksDone + 1 },
                .silent)
      | _ => none

/-- The wrapped coroutine of worker `i` raises an unrecoverable signal:
deliver it through the future when present, set `_exceptions`, re-raise
(the worker task terminates), and still run the `finally` block on the
way out. -/
def workerSig (s : PoolState) (i : ℕ) (sg : Sig) : Option (PoolState × Obs) :=
  match s.workers with
  | none => none
  | some ws =>
    match ws[i]? with
    | some (.busy fut _) =>
        some ({ s with
                  exceptions := true
                  futures := resolveFut s.futures fut (.failed (.signal sg))
                  workers := some (ws.set i (.dead sg))
                  activeWorkers := s.activeWorkers - 1
                  tasksDone := s.tasksDone + 1 },
              .silent)
    | _ => none

/-- The entry of `AsyncPool.join`: `if not self._workers: return` — a
Python falsiness test, true for `None` and for an empty list — otherwise
begin the loop that enqueues `num_workers` terminators. -/
def joinCall (s : PoolState) : Option (PoolState × Obs) :=
  match s.ctrl with
  | .idle =>
    match s.workers with
    | none => some (s, .joined)
    | some [] => some (s, .joined)
    | some (_ :: _) => some ({ s with ctrl := .joining s.numWorkers }, .silent)
  | .joining _ => none

/-- One `await self._queue.put(Terminator())` of the enqueue loop in
`join`; suspends (disabled) while the queue is full. -/
def joinPut (s : PoolState) : Option (PoolState × Obs) :=
  match s.ctrl with
  | .joining (k + 1) =>
      if queueFull s then none
      else some ({ s with queue := s.queue ++ [.term], ctrl := .joining k }, .silent)
  | _ => none

/-- Whether a worker task has completed (so `gather` can return). -/
def workerDone : WorkerSt → Bool
| .retired => true
| .dead _ => true
| _ => false

/-- The signal re-raised by `asyncio.gather`: the exception of the first
worker task, in task order, that terminated abnormally. -/
def firstDead : List WorkerSt → Option Sig
| [] => none
| .dead sg :: _ => some sg
| _ :: ws => firstDead ws

/-- `await asyncio.gather(*self._workers)` returns: when every worker
completed normally, `self._workers = None` is executed and `join` then
raises the aggregate error precisely when `_exceptions` and
`_raise_on_join` are both set; when some worker terminated with an
unrecoverable signal, `gather` re-raises it, the `except` clause logs and
re-raises, and `self._workers` is left untouched. -/
def joinFinish (s : PoolState) : Option (PoolState × Obs) :=
  match s.ctrl with
  | .joining 0 =>
    match s.workers with
    | none => none
    | some ws =>
      if ws.all workerDone then
        match firstDead ws with
        | some sg => some ({ s with ctrl := .idle }, .joinRaisedSignal sg)
        | none =>
            if s.exceptions && s.raiseOnJoin then
              some ({ s with workers := none, ctrl := .idle }, .joinRaisedAggregate)
            else
              some ({ s with workers := none, ctrl := .idle }, .joined)
      else none
  | _ => none

/-- A label naming one atomic step of the system. -/
inductive Act
| push (t1 t2 : ℤ) (payload : ℕ)
| start
| workerGet (i : ℕ)
| workerOk (i : ℕ) (v : ℕ)
| workerErr (i : ℕ) (f : Failure)
| workerSig (i : ℕ) (sg : Sig)
| joinCall
| joinPut
| joinFinish
deriving DecidableEq

/-- The step function of the transition system: `none` when the step is
disabled (the corresponding coroutine is suspended or the call is not in
that phase). -/
def stepFn (s : PoolState) : Act → Option (PoolState × Obs)
| .push t1 t2 payload => push s t1 t2 payload
| .start => start s
| .workerGet i => workerGet s i
| .workerOk i v => workerOk s i v
| .workerErr i f => workerErr s i f
| .workerSig i sg => workerSig s i sg
| .joinCall => joinCall s
| .joinPut => joinPut s
| .joinFinish => joinFinish s

/-- Run a sequence of steps, failing when one is disabled. -/
def run (s : PoolState) : List Act → Option PoolState
| [] => some s
| a :: rest =>
  match stepFn s a with
  | some (s1, _) => run s1 rest
  | none => none

/-- Whether a channel entry holds a reference to future `id`. -/
def itemRefs (id : ℕ) : QItem → Bool
| .item (some j) _ => decide (j = id)
| _ => false

/-- Whether a worker currently holds a reference to future `id`. -/
def workerRefs (id : ℕ) : WorkerSt → Bool
| .busy (some j) _ => decide (j = id)
| _ => false

/-- How many workers currently hold a reference to future `id`. -/
def workerRefCount (s : PoolState) (id : ℕ) : ℕ :=
  match s.workers with
  | none => 0
  | some ws => ws.countP (workerRefs id)

/-- The total number of live references to future `id`: entries of the
channel plus workers in the middle of processing an item. -/
def refCount (s : PoolState) (id : ℕ) : ℕ :=
  s.queue.countP (itemRefs id) + workerRefCount s id

/-- The ownership discipline of one future slot: a pending future is
referenced by exactly one place (its channel entry or the worker
processing its item); a resolved future, and an index outside the arena,
is referenced by nothing. -/
def futOk (s : PoolState) (id : ℕ) : Prop :=
  match s.futures[id]? with
  | some .pending => refCount s id = 1
  | some _ => refCount s id = 0
  | none => refCount s id = 0

/-- The exactly-once ownership invariant over the whole future arena. -/
def Inv (s : PoolState) : Prop := ∀ id, futOk s id

/-- C1: the spec claims `0 ≤ active_workers ≤ N` in every interleaving,
including workers dequeuing termination markers.  The code violates the
lower bound: on the `Terminator` branch the worker breaks out of the loop
without having incremented `_active_workers`, yet the `finally` block
still decrements it.  With one worker, `start(); join()` drives the
counter to `-1`. -/
theorem C1_active_workers_negative :
    ((run (init 1 1 none false false)
        [.start, .joinCall, .joinPut, .workerGet 0]).map PoolState.activeWorkers
      = some (-1)) ∧ ¬ (0 : ℤ) ≤ -1 := by
  exact ⟨rfl, by decide⟩

/-- C2, counterexample: a worker that dies of `KeyboardInterrupt` makes
`asyncio.gather` re-raise that signal out of `join` — a failure other
than the aggregate-join-failure escapes `join`, and `self._workers` is
not released. -/
theorem C2_counterexample :
    ((run (init 1 1 none false false)
        [.start, .push 0 0 7, .workerGet 0, .workerSig 0 .keyboardInterrupt,
         .joinCall, .joinPut]).bind (fun s => stepFn s .joinFinish)).map
      (fun p => (p.2, p.1.workers.isNone))
      = some (.joinRaisedSignal .keyboardInterrupt, false) := rfl

/-- C2, amended: when every worker task completed normally (none died of
an unrecoverable signal), `join` releases the worker-set handle and then
raises the aggregate error exactly when `raise_on_join` is set and a task
failure occurred; nothing other than the aggregate error is raised. -/
theorem C2_join_aggregate_iff (s : PoolState) (ws : List WorkerSt)
    (sb : PoolState) (obs : Obs)
    (hws : s.workers = some ws) (hnd : firstDead ws = none)
    (h : stepFn s .joinFinish = some (sb, obs)) :
    sb.workers = none ∧
    (obs = .joinRaisedAggregate ↔ (s.exceptions && s.raiseOnJoin) = true) ∧
    (obs = .joined ∨ obs = .joinRaisedAggregate) := by
  simp only [stepFn, joinFinish] at h
  split at h
  · split at h
    · exact Option.noConfusion h
    · rename_i ws2 hws2
      rw [hws] at hws2
      injection hws2 with hws2
      subst hws2
      split at h
      · split at h
        · rename_i sg hsg
          rw [hnd] at hsg
          exact Option.noConfusion hsg
        · split at h
          · rename_i hexc
            cases h
            exact ⟨rfl, by simp [hexc], Or.inr rfl⟩
          · rename_i hexc
            cases h
            exact ⟨rfl, by simp [hexc], Or.inl rfl⟩
      · exact Option.noConfusion h
  · exact Option.noConfusion h

/-- Frame conditions: no step changes the configuration fields, the
modelled clock never goes backwards, and a recorded first-push timestamp
is never overwritten. -/
theorem step_frame (s : PoolState) (a : Act) (sb : PoolState) (obs : Obs)
    (h : stepFn s a = some (sb, obs)) :
    sb.numWorkers = s.numWorkers ∧
    sb.loadFactor = s.loadFactor ∧
    sb.jobAcceptDuration = s.jobAcceptDuration ∧
    sb.returnFutures = s.returnFutures ∧
    sb.raiseOnJoin = s.raiseOnJoin ∧
    s.clock ≤ sb.clock ∧
    (∀ f, s.firstPushDt = some f → sb.firstPushDt = some f) := by
  cases a with
  | push t1 t2 payload =>
    simp only [stepFn, push, pushEnqueue] at h
    split at h
    · exact Option.noConfusion h
    · rename_i hguard
      rw [not_or] at hguard
      obtain ⟨hg1, hg2⟩ := hguard
      split at h
      · split at h
        · cases h
          exact ⟨rfl, rfl, rfl, rfl, rfl, by show s.clock ≤ t2; omega, fun f hf => by simp [hf]⟩
        · split at h
          · exact Option.noConfusion h
          · cases h
            exact ⟨rfl, rfl, rfl, rfl, rfl, by show s.clock ≤ t2; omega, fun f hf => by simp [hf]⟩
      · split at h
        · exact Option.noConfusion h
        · cases h
          exact ⟨rfl, rfl, rfl, rfl, rfl, by show s.clock ≤ t2; omega, fun f hf => by simp [hf]⟩
  | start =>
    simp only [stepFn, start] at h
    split at h
    · cases h
      exact ⟨rfl, rfl, rfl, rfl, rfl, le_refl _, fun f hf => hf⟩
    · exact Option.noConfusion h
  | workerGet i =>
    simp only [stepFn, workerGet] at h
    repeat' split at h
    all_goals try exact Option.noConfusion h
    all_goals cases h
    all_goals exact ⟨rfl, rfl, rfl, rfl, rfl, le_refl _, fun f hf => hf⟩
  | workerOk i v =>
    simp only [stepFn, workerOk] at h
    repeat' split at h
    all_goals try exact Option.noConfusion h
    all_goals cases h
    all_goals exact ⟨rfl, rfl, rfl, rfl, rfl, le_refl _, fun f hf => hf⟩
  | workerErr i f =>
    simp only [stepFn, workerErr] at h
    repeat' split at h
    all_goals try exact Option.noConfusion h
    all_goals cases h
    all_goals exact ⟨rfl, rfl, rfl, rfl, rfl, le_refl _, fun f hf => hf⟩
  | workerSig i sg =>
    simp only [stepFn, workerSig] at h
    repeat' split at h
    all_goals try exact Option.noConfusion h
    all_goals cases h
    all_goals exact ⟨rfl, rfl, rfl, rfl, rfl, le_refl _, fun f hf => hf⟩
  | joinCall =>
    simp only [stepFn, joinCall] at h
    repeat' split at h
    all_goals try exact Option.noConfusion h
    all_goals cases h
    all_goals exact ⟨rfl, rfl, rfl, rfl, rfl, le_refl _, fun f hf => hf⟩
  | joinPut =>
    simp only [stepFn, joinPut] at h
    repeat' split at h
    all_goals try exact Option.noConfusion h
    all_goals cases h
    all_goals exact ⟨rfl, rfl, rfl, rfl, rfl, le_refl _, fun f hf => hf⟩
  | joinFinish =>
    simp only [stepFn, joinFinish] at h
    repeat' split at h
    all_goals try exact Option.noConfusion h
    all_goals cases h
    all_goals exact ⟨rfl, rfl, rfl, rfl, rfl, le_refl _, fun f hf => hf⟩

/-- Multi-step version of the frame conditions along a `run`. -/
theorem run_frame (acts : List Act) (s sb : PoolState)
    (h : run s acts = some sb) :
    sb.jobAcceptDuration = s.jobAcceptDuration ∧
    s.clock ≤ sb.clock ∧
    (∀ f, s.firstPushDt = some f → sb.firstPushDt = some f) := by
  induction acts generalizing s with
  | nil =>
    cases h
    exact ⟨rfl, le_refl _, fun f hf => hf⟩
  | cons a rest ih =>
    simp only [run] at h
    split at h
    · rename_i s1 obs hstep
      obtain ⟨ih1, ih2, ih3⟩ := ih s1 h
      obtain ⟨_, _, hs1, _, _, hck, hfp⟩ := step_frame s a s1 obs hstep
      exact ⟨ih1.trans hs1, hck.trans ih2, fun f hf => ih3 f (hfp f hf)⟩
    · exact Option.noConfusion h

/-- C3: once more than the acceptance window `w` has elapsed between the
first push and the clock read of a later push, that push raises the
window error before any enqueue attempt — the resulting state differs at
most in the (already set) first-push timestamp and the modelled clock:
queue, counters and futures are untouched, regardless of free capacity —
and every push reachable from there, after any interleaving of further
steps, fails the same way. -/
theorem C3_push_after_window_expired (s : PoolState) (t1 t2 : ℤ) (payload : ℕ)
    (f w : ℤ) (hf : s.firstPushDt = some f) (hw : s.jobAcceptDuration = some w)
    (h1 : s.clock ≤ t1) (h2 : t1 ≤ t2) (hexp : w < t2 - f) :
    stepFn s (.push t1 t2 payload)
      = some ({ s with firstPushDt := some f, clock := t2 }, .pushRaised) ∧
    (∀ acts s2 t1a t2a pa sb obs,
      run { s with firstPushDt := some f, clock := t2 } acts = some s2 →
      stepFn s2 (.push t1a t2a pa) = some (sb, obs) → obs = .pushRaised) := by
  constructor
  · simp only [stepFn, push]
    rw [if_neg (by omega)]
    simp only [hf, Option.getD_some, hw]
    rw [if_pos (by omega)]
  · intro acts s2 t1a t2a pa sb obs hrun hstep
    obtain ⟨hdur, hck, hfp⟩ := run_frame acts _ s2 hrun
    have hdur2 : s2.jobAcceptDuration = some w := by
      rw [hdur]; exact hw
    have hfp2 : s2.firstPushDt = some f := hfp f rfl
    have hck2 : t2 ≤ s2.clock := hck
    by_cases hg : t1a < s2.clock ∨ t2a < t1a
    · have hval : stepFn s2 (.push t1a t2a pa) = none := by
        simp only [stepFn, push]
        rw [if_pos hg]
      rw [hval] at hstep
      exact Option.noConfusion hstep
    · have hval : stepFn s2 (.push t1a t2a pa)
          = some ({ s2 with firstPushDt := some f, clock := t2a }, .pushRaised) := by
        simp only [stepFn, push]
        rw [if_neg hg]
        simp only [hfp2, Option.getD_some, hdur2]
        rw [if_pos (by rw [not_or] at hg; omega)]
      rw [hval] at hstep
      cases hstep
      rfl

/-- C3, witness: a pool with window 5 whose first push happened at time
0, pushed again at time 6. -/
theorem C3_push_after_window_expired_witness :
    stepFn { init 1 1 (some 5) false false with firstPushDt := some 0, clock := 0 }
        (.push 6 6 3)
      = some ({ init 1 1 (some 5) false false with
                  firstPushDt := some 0
                  clock := 6 }, .pushRaised) :=
  (C3_push_after_window_expired
    { init 1 1 (some 5) false false with firstPushDt := some 0, clock := 0 }
    6 6 3 0 5 rfl rfl (by decide) (by decide) (by decide)).1

/-- C10, counterexample: the first `push` reads the clock once to record
`_first_push_dt` and a second time for the window check; with a window of
0 and a clock that advances by 1 between the two reads, the very first
push raises the acceptance-window error (and enqueues nothing). -/
theorem C10_counterexample :
    (init 1 1 (some 0) false false).firstPushDt = none ∧
    (stepFn (init 1 1 (some 0) false false) (.push 0 1 5)).map
        (fun p => (p.2, p.1.totalQueued, p.1.queue.length))
      = some (.pushRaised, 0, 0) := ⟨rfl, rfl⟩

/-- C10, amended: a first push (no recorded first-push timestamp yet)
cannot raise the acceptance-window error provided the clock advances by
at most the window `w` between the timestamp-recording read and the
window-check read; in particular, when both reads return the same
instant, the measured elapsed time is zero and the strict comparison
cannot trigger. -/
theorem C10_first_push_no_window_error (s : PoolState) (t1 t2 : ℤ)
    (payload : ℕ) (w : ℤ) (sb : PoolState) (obs : Obs)
    (hf : s.firstPushDt = none) (hw : s.jobAcceptDuration = some w)
    (hle : t2 - t1 ≤ w)
    (h : stepFn s (.push t1 t2 payload) = some (sb, obs)) :
    obs ≠ .pushRaised := by
  simp only [stepFn, push] at h
  split at h
  · exact Option.noConfusion h
  · simp only [hf, Option.getD_none, hw] at h
    rw [if_neg (by omega)] at h
    simp only [pushEnqueue] at h
    split at h
    · exact Option.noConfusion h
    · cases h
      simp

/-- C10, witness: a first push at time 0 with both clock reads equal and
window 0 succeeds rather than raising the window error. -/
theorem C10_first_push_no_window_error_witness :
    (init 1 1 (some 0) false false).firstPushDt = none ∧
    Obs.pushed none ≠ Obs.pushRaised := by
  constructor
  · rfl
  · exact C10_first_push_no_window_error (init 1 1 (some 0) false false)
      0 0 5 0 _ _ rfl rfl (by decide) rfl

/-- C9, counterexample: with `num_workers = 0` and `load_factor = 1` the
channel is created with maxsize `0 × 1 = 0`, which asyncio treats as an
unbounded queue: the very first submission succeeds instead of
suspending, and occupancy (1) exceeds `N × L` (0). -/
theorem C9_counterexample :
    capacity (init 0 1 none false false) = 0 ∧
    (stepFn (init 0 1 none false false) (.push 0 0 3)).map
        (fun p => (p.1.queue.length, p.2))
      = some (1, .pushed none) := ⟨rfl, rfl⟩

/-- C4: across every step of the system, the sticky `exceptions` flag is
false right after `start`, is reset to false by no other step, and is set
to true by exactly the task-failure steps (ordinary failures, task
timeouts, unrecoverable signals). -/
theorem C4_exceptions_flag (s : PoolState) (a : Act) (sb : PoolState) (obs : Obs)
    (h : stepFn s a = some (sb, obs)) :
    (a = .start → sb.exceptions = false) ∧
    (s.exceptions = true → sb.exceptions = false → a = .start) ∧
    (s.exceptions = false → sb.exceptions = true →
      (∃ i f, a = .workerErr i f) ∨ (∃ i sg, a = .workerSig i sg)) ∧
    (∀ i f, a = .workerErr i f → sb.exceptions = true) ∧
    (∀ i sg, a = .workerSig i sg → sb.exceptions = true) := by
  cases a with
  | push t1 t2 payload =>
    simp only [stepFn, push, pushEnqueue] at h
    repeat' split at h
    all_goals try exact Option.noConfusion h
    all_goals cases h
    all_goals
      exact ⟨fun hc => Act.noConfusion hc,
        fun h1 h2 => by rw [h1] at h2; exact Bool.noConfusion h2,
        fun h1 h2 => by rw [h1] at h2; exact Bool.noConfusion h2,
        fun i f hc => Act.noConfusion hc,
        fun i sg hc => Act.noConfusion hc⟩
  | start =>
    simp only [stepFn, start] at h
    split at h
    · cases h
      exact ⟨fun _ => rfl, fun _ _ => rfl,
        fun h1 h2 => Bool.noConfusion h2,
        fun i f hc => Act.noConfusion hc,
        fun i sg hc => Act.noConfusion hc⟩
    · exact Option.noConfusion h
  | workerGet i =>
    simp only [stepFn, workerGet] at h
    repeat' split at h
    all_goals try exact Option.noConfusion h
    all_goals cases h
    all_goals
      exact ⟨fun hc => Act.noConfusion hc,
        fun h1 h2 => by rw [h1] at h2; exact Bool.noConfusion h2,
        fun h1 h2 => by rw [h1] at h2; exact Bool.noConfusion h2,
        fun i f hc => Act.noConfusion hc,
        fun i sg hc => Act.noConfusion hc⟩
  | workerOk i v =>
    simp only [stepFn, workerOk] at h
    repeat' split at h
    all_goals try exact Option.noConfusion h
    all_goals cases h
    all_goals
      exact ⟨fun hc => Act.noConfusion hc,
        fun h1 h2 => by rw [h1] at h2; exact Bool.noConfusion h2,
        fun h1 h2 => by rw [h1] at h2; exact Bool.noConfusion h2,
        fun i f hc => Act.noConfusion hc,
        fun i sg hc => Act.noConfusion hc⟩
  | workerErr i f =>
    simp only [stepFn, workerErr] at h
    repeat' split at h
    all_goals try exact Option.noConfusion h
    all_goals cases h
    all_goals
      exact ⟨fun hc => Act.noConfusion hc,
        fun h1 h2 => Bool.noConfusion h2,
        fun h1 h2 => Or.inl ⟨i, f, rfl⟩,
        fun i2 f2 hc => rfl,
        fun i2 sg2 hc => Act.noConfusion hc⟩
  | workerSig i sg =>
    simp only [stepFn, workerSig] at h
    repeat' split at h
    all_goals try exact Option.noConfusion h
    all_goals cases h
    all_goals
      exact ⟨fun hc => Act.noConfusion hc,
        fun h1 h2 => Bool.noConfusion h2,
        fun h1 h2 => Or.inr ⟨i, sg, rfl⟩,
        fun i2 f2 hc => Act.noConfusion hc,
        fun i2 sg2 hc => rfl⟩
  | joinCall =>
    simp only [stepFn, joinCall] at h
    repeat' split at h
    all_goals try exact Option.noConfusion h
    all_goals cases h
    all_goals
      exact ⟨fun hc => Act.noConfusion hc,
        fun h1 h2 => by rw [h1] at h2; exact Bool.noConfusion h2,
        fun h1 h2 => by rw [h1] at h2; exact Bool.noConfusion h2,
        fun i f hc => Act.noConfusion hc,
        fun i sg hc => Act.noConfusion hc⟩
  | joinPut =>
    simp only [stepFn, joinPut] at h
    repeat' split at h
    all_goals try exact Option.noConfusion h
    all_goals cases h
    all_goals
      exact ⟨fun hc => Act.noConfusion hc,
        fun h1 h2 => by rw [h1] at h2; exact Bool.noConfusion h2,
        fun h1 h2 => by rw [h1] at h2; exact Bool.noConfusion h2,
        fun i f hc => Act.noConfusion hc,
        fun i sg hc => Act.noConfusion hc⟩
  | joinFinish =>
    simp only [stepFn, joinFinish] at h
    repeat' split at h
    all_goals try exact Option.noConfusion h
    all_goals cases h
    all_goals
      exact ⟨fun hc => Act.noConfusion hc,
        fun h1 h2 => by rw [h1] at h2; exact Bool.noConfusion h2,
        fun h1 h2 => by rw [h1] at h2; exact Bool.noConfusion h2,
        fun i f hc => Act.noConfusion hc,
        fun i sg hc => Act.noConfusion hc⟩

/-- C4, witness: a concrete `start` step on a pool whose flag was set. -/
theorem C4_exceptions_flag_witness :
    stepFn ({ init 1 1 none false false with exceptions := true } : PoolState)
        Act.start
      = some ({ init 1 1 none false false with
                  exceptions := false
                  workers := some [WorkerSt.idle] }, Obs.silent) ∧
    ({ init 1 1 none false false with
        exceptions := false
        workers := some [WorkerSt.idle] } : PoolState).exceptions = false := by
  refine ⟨rfl, ?_⟩
  exact (C4_exceptions_flag
    { init 1 1 none false false with exceptions := true }
    Act.start _ _ rfl).1 rfl

/-- C7: when the invocation of a dequeued item fails with an ordinary
(non-signal) failure, exactly one of two side effects happens: with a
future attached, the future receives the failure and nothing is logged;
without one, the failure is logged and the future arena is untouched. -/
theorem C7_fail_resolve_xor_log (s : PoolState) (i : ℕ) (f : Failure)
    (ws : List WorkerSt) (fut : Option ℕ) (payload : ℕ) (sb : PoolState)
    (obs : Obs)
    (hws : s.workers = some ws) (hbusy : ws[i]? = some (.busy fut payload))
    (h : stepFn s (.workerErr i f) = some (sb, obs)) :
    (fut = none → sb.loggedFailures = s.loggedFailures + 1 ∧
      sb.futures = s.futures) ∧
    (∀ j, fut = some j → sb.loggedFailures = s.loggedFailures ∧
      sb.futures = s.futures.set j (.failed f)) := by
  simp only [stepFn, workerErr] at h
  split at h
  · exact Option.noConfusion h
  · split at h
    · exact Option.noConfusion h
    · rename_i ws2 hws2
      rw [hws] at hws2
      injection hws2 with hws2
      subst hws2
      split at h
      · rename_i fut2 payload2 hbusy2
        rw [hbusy] at hbusy2
        injection hbusy2 with hbusy2
        injection hbusy2 with hfut hpay
        subst hfut
        cases h
        cases fut with
        | none =>
          exact ⟨fun _ => ⟨rfl, rfl⟩, fun j hj => Option.noConfusion hj⟩
        | some j =>
          refine ⟨fun hc => Option.noConfusion hc, fun j2 hj => ?_⟩
          injection hj with hj
          subst hj
          exact ⟨rfl, rfl⟩
      · exact Option.noConfusion h

/-- C7, witness: one worker, busy on an item with no future, fails with
a task error; the failure is logged and no future is touched. -/
theorem C7_fail_resolve_xor_log_witness :
    ({ init 1 1 none false false with
        workers := some [WorkerSt.busy none 7] } : PoolState).workers
      = some [WorkerSt.busy none 7] ∧
    ({ init 1 1 none false false with
        workers := some [WorkerSt.idle]
        exceptions := true
        loggedFailures := 1
        activeWorkers := -1
        tasksDone := 1 } : PoolState).loggedFailures
      = ({ init 1 1 none false false with
            workers := some [WorkerSt.busy none 7] } : PoolState).loggedFailures
          + 1 :=
  ⟨rfl,
    ((C7_fail_resolve_xor_log
      { init 1 1 none false false with workers := some [WorkerSt.busy none 7] }
      0 (.taskError 3) [WorkerSt.busy none 7] none 7
      { init 1 1 none false false with
          workers := some [WorkerSt.idle]
          exceptions := true
          loggedFailures := 1
          activeWorkers := -1
          tasksDone := 1 }
      .silent rfl rfl rfl).1 rfl).1⟩

/-- C8: an unrecoverable signal during item processing sets the sticky
flag, resolves the future with the signal when present, kills exactly
worker `i` (the other workers are untouched and the dead worker can no
longer dequeue or finish anything), and the finally block still
decrements the active-worker count and acknowledges the item. -/
theorem C8_signal_path (s : PoolState) (i : ℕ) (sg : Sig)
    (ws : List WorkerSt) (fut : Option ℕ) (payload : ℕ) (sb : PoolState)
    (obs : Obs)
    (hws : s.workers = some ws) (hbusy : ws[i]? = some (.busy fut payload))
    (h : stepFn s (.workerSig i sg) = some (sb, obs)) :
    sb.exceptions = true ∧
    sb.futures = resolveFut s.futures fut (.failed (.signal sg)) ∧
    sb.workers = some (ws.set i (.dead sg)) ∧
    sb.activeWorkers = s.activeWorkers - 1 ∧
    sb.tasksDone = s.tasksDone + 1 ∧
    (∀ j, i ≠ j → (ws.set i (.dead sg))[j]? = ws[j]?) ∧
    stepFn sb (.workerGet i) = none ∧
    (∀ v, stepFn sb (.workerOk i v) = none) := by
  have hlen : i < ws.length := (List.getElem?_eq_some.mp hbusy).1
  have hset : (ws.set i (WorkerSt.dead sg))[i]? = some (.dead sg) :=
    List.getElem?_set_eq_of_lt _ hlen
  simp only [stepFn, workerSig] at h
  split at h
  · exact Option.noConfusion h
  · rename_i ws2 hws2
    rw [hws] at hws2
    injection hws2 with hws2
    subst hws2
    split at h
    · rename_i fut2 payload2 hbusy2
      rw [hbusy] at hbusy2
      injection hbusy2 with hbusy2
      injection hbusy2 with hfut hpay
      subst hfut
      cases h
      refine ⟨rfl, rfl, rfl, rfl, rfl,
        fun j hj => List.getElem?_set_ne hj, ?_, fun v => ?_⟩
      · simp only [stepFn, workerGet, hset]
      · simp only [stepFn, workerOk, hset]
    · exact Option.noConfusion h

/-- C8, witness: one worker busy on a future-carrying item dies of
`SystemExit`; the flag is set, the future fails with the signal, the
worker is dead, the counter is decremented and the item acknowledged. -/
theorem C8_signal_path_witness :
    ({ init 1 1 none true false with
        workers := some [WorkerSt.busy (some 0) 7]
        futures := [FutureSt.pending]
        activeWorkers := 1 } : PoolState).workers
      = some [WorkerSt.busy (some 0) 7] ∧
    ({ init 1 1 none true false with
        workers := some [WorkerSt.dead .systemExit]
        futures := [FutureSt.failed (.signal .systemExit)]
        exceptions := true
        activeWorkers := 0
        tasksDone := 1 } : PoolState).exceptions = true ∧
    ({ init 1 1 none true false with
        workers := some [WorkerSt.dead .systemExit]
        futures := [FutureSt.failed (.signal .systemExit)]
        exceptions := true
        activeWorkers := 0
        tasksDone := 1 } : PoolState).futures
      = resolveFut [FutureSt.pending] (some 0) (.failed (.signal .systemExit)) := by
  have h := C8_signal_path
    { init 1 1 none true false with
        workers := some [WorkerSt.busy (some 0) 7]
        futures := [FutureSt.pending]
        activeWorkers := 1 }
    0 .systemExit [WorkerSt.busy (some 0) 7] (some 0) 7
    { init 1 1 none true false with
        workers := some [WorkerSt.dead .systemExit]
        futures := [FutureSt.failed (.signal .systemExit)]
        exceptions := true
        activeWorkers := 0
        tasksDone := 1 }
    .silent rfl rfl rfl
  exact ⟨rfl, h.1, h.2.1⟩

/-- C6, counterexample: with two workers of which one died of
`SystemExit` before `join`, `join` still enqueues two terminators but
only the surviving worker consumes one; `gather` then re-raises the
signal, leaving one marker unconsumed in the channel and the worker-set
handle unreleased. -/
theorem C6_counterexample :
    ((run (init 2 1 none false false)
        [.start, .push 0 0 9, .workerGet 0, .workerSig 0 .systemExit,
         .joinCall, .joinPut, .joinPut, .workerGet 1]).bind
        (fun s => stepFn s .joinFinish)).map
      (fun p => (p.1.queue, p.1.workers.isNone, p.2))
      = some ([.term], false, .joinRaisedSignal .systemExit) := rfl

/-- C6, amended: `join` is a no-op when the worker-set handle is absent
or the worker list is empty; otherwise it enqueues exactly `N`
termination markers (the counter walks from `N` to `0`, one enqueued
marker per step); a worker dequeuing a marker retires and a retired
worker can dequeue or finish nothing further; and when no worker died
abnormally, the `gather` return releases the worker-set handle. -/
theorem C6_join_termination_protocol :
    (∀ s, s.ctrl = .idle → s.workers = none →
      stepFn s .joinCall = some (s, .joined)) ∧
    (∀ s, s.ctrl = .idle → s.workers = some [] →
      stepFn s .joinCall = some (s, .joined)) ∧
    (∀ s w2 ws2, s.ctrl = .idle → s.workers = some (w2 :: ws2) →
      stepFn s .joinCall
        = some ({ s with ctrl := .joining s.numWorkers }, .silent)) ∧
    (∀ s k sb obs, s.ctrl = .joining (k + 1) →
      stepFn s .joinPut = some (sb, obs) →
      sb.queue = s.queue ++ [.term] ∧ sb.ctrl = .joining k) ∧
    (∀ s i ws rest sb obs, s.workers = some ws → s.queue = .term :: rest →
      stepFn s (.workerGet i) = some (sb, obs) →
      sb.queue = rest ∧ sb.workers = some (ws.set i .retired)) ∧
    (∀ s ws i, s.workers = some ws → ws[i]? = some .retired →
      stepFn s (.workerGet i) = none ∧ (∀ v, stepFn s (.workerOk i v) = none)) ∧
    (∀ s ws sb obs, s.workers = some ws → firstDead ws = none →
      stepFn s .joinFinish = some (sb, obs) → sb.workers = none) := by
  refine ⟨?_, ?_, ?_, ?_, ?_, ?_, ?_⟩
  · intro s hc hw
    simp [stepFn, joinCall, hc, hw]
  · intro s hc hw
    simp [stepFn, joinCall, hc, hw]
  · intro s w2 ws2 hc hw
    simp [stepFn, joinCall, hc, hw]
  · intro s k sb obs hc h
    simp only [stepFn, joinPut, hc] at h
    split at h
    · exact Option.noConfusion h
    · cases h
      exact ⟨rfl, rfl⟩
  · intro s i ws rest sb obs hws hq h
    simp only [stepFn, workerGet, hws, hq] at h
    split at h
    · cases h
      exact ⟨rfl, rfl⟩
    · exact Option.noConfusion h
  · intro s ws i hws hr
    constructor
    · simp [stepFn, workerGet, hws, hr]
    · intro v
      simp [stepFn, workerOk, hws, hr]
  · intro s ws sb obs hws hnd h
    simp only [stepFn, joinFinish] at h
    split at h
    · split at h
      · exact Option.noConfusion h
      · rename_i ws2 hws2
        rw [hws] at hws2
        injection hws2 with hws2
        subst hws2
        split at h
        · split at h
          · rename_i sg hsg
            rw [hnd] at hsg
            exact Option.noConfusion hsg
          · split at h
            · cases h; rfl
            · cases h; rfl
        · exact Option.noConfusion h
    · exact Option.noConfusion h

/-- C6, witness: joining a never-started pool is a no-op that returns
immediately. -/
theorem C6_join_termination_protocol_witness :
    stepFn (init 2 1 none false false) .joinCall
      = some (init 2 1 none false false, .joined) :=
  C6_join_termination_protocol.1 (init 2 1 none false false) rfl rfl

/-- Every step preserves the occupancy bound of a channel with positive
capacity: both enqueue operations (a push and a terminator put) are
guarded by the full-queue check, and every other step leaves the queue
alone or shortens it. -/
theorem step_occupancy (s : PoolState) (a : Act) (sb : PoolState) (obs : Obs)
    (h : stepFn s a = some (sb, obs))
    (hcap : capacity s ≠ 0) (hlen : s.queue.length ≤ capacity s) :
    sb.queue.length ≤ capacity s := by
  cases a with
  | push t1 t2 payload =>
    simp only [stepFn, push, pushEnqueue] at h
    split at h
    · exact Option.noConfusion h
    · split at h
      · split at h
        · cases h
          exact hlen
        · split at h
          · exact Option.noConfusion h
          · rename_i hfull
            simp only [queueFull, capacity, decide_eq_true_eq, not_and,
              not_le] at hfull
            simp only [capacity] at hcap hlen ⊢
            cases h
            simp only [List.length_append, List.length_cons, List.length_nil]
            omega
      · split at h
        · exact Option.noConfusion h
        · rename_i hfull
          simp only [queueFull, capacity, decide_eq_true_eq, not_and, not_le] at hfull
          simp only [capacity] at hcap hlen ⊢
          cases h
          simp only [List.length_append, List.length_cons, List.length_nil]
          omega
  | start =>
    simp only [stepFn, start] at h
    split at h
    · cases h; exact hlen
    · exact Option.noConfusion h
  | workerGet i =>
    simp only [stepFn, workerGet] at h
    repeat' split at h
    all_goals try exact Option.noConfusion h
    all_goals cases h
    all_goals
      rename_i hq
      rw [hq] at hlen
      simp only [List.length_cons] at hlen
      simp only []
      omega
  | workerOk i v =>
    simp only [stepFn, workerOk] at h
    repeat' split at h
    all_goals try exact Option.noConfusion h
    all_goals cases h
    all_goals exact hlen
  | workerErr i f =>
    simp only [stepFn, workerErr] at h
    repeat' split at h
    all_goals try exact Option.noConfusion h
    all_goals cases h
    all_goals exact hlen
  | workerSig i sg =>
    simp only [stepFn, workerSig] at h
    repeat' split at h
    all_goals try exact Option.noConfusion h
    all_goals cases h
    all_goals exact hlen
  | joinCall =>
    simp only [stepFn, joinCall] at h
    repeat' split at h
    all_goals try exact Option.noConfusion h
    all_goals cases h
    all_goals exact hlen
  | joinPut =>
    simp only [stepFn, joinPut] at h
    split at h
    · split at h
      · exact Option.noConfusion h
      · rename_i hfull
        simp only [queueFull, capacity, decide_eq_true_eq, not_and, not_le] at hfull
        simp only [capacity] at hcap hlen ⊢
        cases h
        simp only [List.length_append, List.length_cons, List.length_nil]
        omega
    · exact Option.noConfusion h
  | joinFinish =>
    simp only [stepFn, joinFinish] at h
    repeat' split at h
    all_goals try exact Option.noConfusion h
    all_goals cases h
    all_goals exact hlen

/-- Multi-step version of the occupancy bound. -/
theorem run_occupancy (acts : List Act) (s sb : PoolState)
    (h : run s acts = some sb)
    (hcap : capacity s ≠ 0) (hlen : s.queue.length ≤ capacity s) :
    sb.queue.length ≤ capacity s := by
  induction acts generalizing s with
  | nil =>
    cases h
    exact hlen
  | cons a rest ih =>
    simp only [run] at h
    split at h
    · rename_i s1 obs hstep
      obtain ⟨hN, hL, _, _, _, _, _⟩ := step_frame s a s1 obs hstep
      have hcap1 : capacity s1 = capacity s := by
        simp only [capacity, hN, hL]
      have h1 := step_occupancy s a s1 obs hstep hcap hlen
      have := ih s1 h (by rw [hcap1]; exact hcap) (by rw [hcap1]; exact h1)
      rw [hcap1] at this
      exact this
    · exact Option.noConfusion h

/-- C9, amended: the channel is created with maxsize exactly `N × L`;
for `N ≥ 1` and `L ≥ 1` (so the maxsize is positive and asyncio treats
the queue as bounded) the occupancy never exceeds `N × L` in any run,
and a push finding the channel full either raises the window error
without enqueuing or suspends — it never enqueues. -/
theorem C9_capacity_bound :
    (∀ N L w rf rj, capacity (init N L w rf rj) = N * L) ∧
    (∀ N L w rf rj acts s, 1 ≤ N → 1 ≤ L →
      run (init N L w rf rj) acts = some s → s.queue.length ≤ N * L) ∧
    (∀ s t1 t2 payload sb obs, capacity s ≠ 0 →
      capacity s ≤ s.queue.length →
      stepFn s (.push t1 t2 payload) = some (sb, obs) →
      obs = .pushRaised ∧ sb.queue = s.queue) := by
  refine ⟨fun N L w rf rj => rfl, ?_, ?_⟩
  · intro N L w rf rj acts s hN hL hrun
    have hcap : capacity (init N L w rf rj) ≠ 0 := by
      simp only [capacity, init]
      exact Nat.ne_of_gt (Nat.mul_pos hN hL)
    have := run_occupancy acts _ s hrun hcap (by simp [init])
    simpa [capacity, init] using this
  · intro s t1 t2 payload sb obs hcap hfull h
    simp only [stepFn, push, pushEnqueue] at h
    split at h
    · exact Option.noConfusion h
    · split at h
      · split at h
        · cases h
          exact ⟨rfl, rfl⟩
        · split at h
          · exact Option.noConfusion h
          · rename_i hnf
            exfalso
            simp only [queueFull, capacity, decide_eq_true_eq, not_and,
              not_le] at hnf
            simp only [capacity] at hcap hfull
            omega
      · split at h
        · exact Option.noConfusion h
        · rename_i hnf
          exfalso
          simp only [queueFull, capacity, decide_eq_true_eq, not_and, not_le] at hnf
          simp only [capacity] at hcap hfull
          omega

/-- C9, witness: a pool with two workers and load factor 3 has channel
capacity 6, and an empty two-step run keeps occupancy within 6. -/
theorem C9_capacity_bound_witness :
    capacity (init 2 3 none false false) = 6 ∧
    ((run (init 2 3 none false false) [.push 0 0 1]).map
      (fun s => s.queue.length)).getD 7 ≤ 6 := by
  refine ⟨C9_capacity_bound.1 2 3 none false false, ?_⟩
  have := C9_capacity_bound.2.1 2 3 none false false [.push 0 0 1]
    { init 2 3 none false false with
        firstPushDt := some 0
        queue := [QItem.item none 1]
        totalQueued := 1 }
    (by decide) (by decide) rfl
  exact this

/-- Replacing one element of a list changes `countP` by the difference
of the predicate on the old and new element. -/
theorem countP_set {α : Type} (p : α → Bool) (l : List α) (i : ℕ) (b a : α)
    (hb : l[i]? = some b) :
    (l.set i a).countP p + (if p b then 1 else 0)
      = l.countP p + (if p a then 1 else 0) := by
  induction l generalizing i with
  | nil => exact absurd hb (by simp)
  | cons x xs ih =>
    cases i with
    | zero =>
      rw [List.getElem?_cons_zero] at hb
      injection hb with hb
      subst hb
      rw [List.set_cons_zero, List.countP_cons, List.countP_cons]
      omega
    | succ n =>
      rw [List.getElem?_cons_succ] at hb
      rw [List.set_cons_succ, List.countP_cons, List.countP_cons]
      have := ih n hb
      omega

/-- A channel entry and the busy worker holding the same item reference
the same future. -/
theorem itemRefs_eq_workerRefs (id : ℕ) (fut : Option ℕ) (payload : ℕ) :
    itemRefs id (.item fut payload) = workerRefs id (.busy fut payload) := by
  cases fut <;> rfl

/-- A worker set in which every worker has completed holds no future
references. -/
theorem countP_workerDone_zero (ws : List WorkerSt)
    (hall : ws.all workerDone = true) (id : ℕ) :
    ws.countP (workerRefs id) = 0 := by
  rw [List.countP_eq_zero]
  intro a ha
  have hd := (List.all_eq_true.mp hall) a ha
  cases a with
  | idle => simp [workerRefs]
  | busy fut payload => exact absurd hd (by simp [workerDone])
  | retired => simp [workerRefs]
  | dead sg => simp [workerRefs]

/-- The ownership invariant holds right after construction. -/
theorem inv_init (N L : ℕ) (w : Option ℤ) (rf rj : Bool) :
    Inv (init N L w rf rj) := by
  intro id
  unfold futOk refCount workerRefCount init
  simp

/-- Under the invariant, the future held by a busy worker is pending,
in range, and accounts for at least one worker reference. -/
theorem busy_fut_pending (s : PoolState) (ws : List WorkerSt) (i : ℕ)
    (j : ℕ) (payload : ℕ) (hInv : Inv s)
    (hws : s.workers = some ws)
    (hbusy : ws[i]? = some (.busy (some j) payload)) :
    s.futures[j]? = some .pending ∧
    1 ≤ ws.countP (workerRefs j) ∧ j < s.futures.length := by
  have hmem : WorkerSt.busy (some j) payload ∈ ws := List.getElem?_mem hbusy
  have hpos : 0 < ws.countP (workerRefs j) :=
    List.countP_pos_iff.mpr ⟨_, hmem, by simp [workerRefs]⟩
  have hok := hInv j
  unfold futOk refCount workerRefCount at hok
  rcases hfj : s.futures[j]? with _ | fs
  · rw [hfj] at hok
    simp only [hws] at hok
    omega
  · cases fs with
    | pending => exact ⟨rfl, hpos, (List.getElem?_eq_some.mp hfj).1⟩
    | done v =>
      rw [hfj] at hok
      simp only [hws] at hok
      omega
    | failed f =>
      rw [hfj] at hok
      simp only [hws] at hok
      omega

/-- `workerRefCount` through a known worker list. -/
theorem workerRefCount_some (s : PoolState) (ws : List WorkerSt) (id : ℕ)
    (hws : s.workers = some ws) :
    workerRefCount s id = ws.countP (workerRefs id) := by
  unfold workerRefCount
  rw [hws]

/-- `workerRefCount` when no worker set exists. -/
theorem workerRefCount_none (s : PoolState) (id : ℕ)
    (hws : s.workers = none) :
    workerRefCount s id = 0 := by
  unfold workerRefCount
  rw [hws]

/-- `workerRefCount` only depends on the worker component. -/
theorem workerRefCount_congr (s2 s : PoolState) (id : ℕ)
    (h : s2.workers = s.workers) :
    workerRefCount s2 id = workerRefCount s id := by
  unfold workerRefCount
  rw [h]

/-- `refCount` through a known worker list. -/
theorem refCount_eq (s : PoolState) (ws : List WorkerSt) (id : ℕ)
    (hws : s.workers = some ws) :
    refCount s id
      = s.queue.countP (itemRefs id) + ws.countP (workerRefs id) := by
  unfold refCount
  rw [workerRefCount_some s ws id hws]

/-- Unfolding `futOk` at an index outside the arena. -/
theorem futOk_none_refCount (s : PoolState) (id : ℕ)
    (hx : s.futures[id]? = none) (h : futOk s id) : refCount s id = 0 := by
  unfold futOk at h
  rw [hx] at h
  exact h

/-- Unfolding `futOk` at a pending slot. -/
theorem futOk_pending_refCount (s : PoolState) (id : ℕ)
    (hx : s.futures[id]? = some .pending) (h : futOk s id) :
    refCount s id = 1 := by
  unfold futOk at h
  rw [hx] at h
  exact h

/-- Introducing `futOk` at an index outside the arena. -/
theorem futOk_of_none (s : PoolState) (id : ℕ)
    (hx : s.futures[id]? = none) (h : refCount s id = 0) : futOk s id := by
  unfold futOk
  rw [hx]
  exact h

/-- Introducing `futOk` at an occupied slot. -/
theorem futOk_of_some (s : PoolState) (id : ℕ) (r : FutureSt)
    (hx : s.futures[id]? = some r)
    (h1 : r = .pending → refCount s id = 1)
    (h2 : r ≠ .pending → refCount s id = 0) : futOk s id := by
  unfold futOk
  rw [hx]
  cases r with
  | pending => exact h1 rfl
  | done v => exact h2 (by simp)
  | failed f => exact h2 (by simp)

/-- Transfer of one slot of the ownership discipline along equal
reference counts and an equal arena slot. -/
theorem futOk_of_refCount (s2 s : PoolState) (id : ℕ)
    (hrc : refCount s2 id = refCount s id)
    (hf : s2.futures[id]? = s.futures[id]?)
    (h : futOk s id) : futOk s2 id := by
  unfold futOk at h ⊢
  rw [hrc, hf]
  exact h

/-- Transfer of the whole invariant along equal queue, workers and
futures components. -/
theorem inv_of_parts (s2 s : PoolState) (hq : s2.queue = s.queue)
    (hw : s2.workers = s.workers) (hf : s2.futures = s.futures)
    (h : Inv s) : Inv s2 := by
  intro id
  refine futOk_of_refCount s2 s id ?_ ?_ (h id)
  · unfold refCount workerRefCount
    rw [hq, hw]
  · rw [hf]

/-- `refCount` after appending one item to the channel. -/
theorem refCount_append_item (s s2 : PoolState) (it : QItem) (id : ℕ)
    (hq : s2.queue = s.queue ++ [it]) (hw : s2.workers = s.workers) :
    refCount s2 id = refCount s id + (if itemRefs id it then 1 else 0) := by
  unfold refCount
  rw [hq, List.countP_append, List.countP_cons, List.countP_nil,
    workerRefCount_congr s2 s id hw]
  omega

/-- The enqueue tail of `push` with futures disabled preserves the
ownership invariant: the new channel entry references no future. -/
theorem inv_push_enqueue_false (s s2 : PoolState) (payload : ℕ) (hInv : Inv s)
    (hq : s2.queue = s.queue ++ [.item none payload])
    (hf : s2.futures = s.futures)
    (hw : s2.workers = s.workers) : Inv s2 := by
  intro id
  refine futOk_of_refCount s2 s id ?_ (by rw [hf]) (hInv id)
  rw [refCount_append_item s s2 _ id hq hw]
  have hz : itemRefs id (QItem.item none payload) = false := rfl
  rw [hz]
  simp

/-- The enqueue tail of `push` with futures enabled preserves the
ownership invariant: the fresh future is pending and referenced exactly
by the new channel entry, and no other slot changes. -/
theorem inv_push_enqueue_true (s s2 : PoolState) (payload : ℕ) (hInv : Inv s)
    (hq : s2.queue = s.queue ++ [.item (some s.futures.length) payload])
    (hf : s2.futures = s.futures ++ [.pending])
    (hw : s2.workers = s.workers) : Inv s2 := by
  intro id
  rcases lt_trichotomy id s.futures.length with hlt | heqid | hgt
  · refine futOk_of_refCount s2 s id ?_ ?_ (hInv id)
    · rw [refCount_append_item s s2 _ id hq hw]
      have hz : itemRefs id (QItem.item (some s.futures.length) payload)
          = false := by
        simp only [itemRefs, decide_eq_false_iff_not]
        omega
      rw [hz]
      simp
    · rw [hf]
      exact List.getElem?_append_left hlt
  · subst heqid
    refine futOk_of_some s2 _ FutureSt.pending ?_ (fun _ => ?_)
      (fun hc => absurd rfl hc)
    · rw [hf]
      exact List.getElem?_concat_length _ _
    · have hold : refCount s s.futures.length = 0 :=
        futOk_none_refCount s _ (List.getElem?_eq_none (le_refl _)) (hInv _)
      rw [refCount_append_item s s2 _ _ hq hw, hold]
      have ho : itemRefs s.futures.length
          (QItem.item (some s.futures.length) payload) = true := by
        simp [itemRefs]
      rw [ho]
      simp
  · refine futOk_of_none s2 _ ?_ ?_
    · rw [hf]
      exact List.getElem?_eq_none (by simp only [List.length_append,
        List.length_cons, List.length_nil]; omega)
    · have hold : refCount s id = 0 :=
        futOk_none_refCount s id (List.getElem?_eq_none (by omega)) (hInv id)
      rw [refCount_append_item s s2 _ id hq hw, hold]
      have hz : itemRefs id (QItem.item (some s.futures.length) payload)
          = false := by
        simp only [itemRefs, decide_eq_false_iff_not]
        omega
      rw [hz]
      simp

/-- A worker finishing its item — delivering `r` to the item future when
one is attached and moving to any state that holds no reference —
preserves the ownership invariant; the resolved slot drops to zero
references. -/
theorem inv_resolve (s : PoolState) (ws : List WorkerSt) (i : ℕ)
    (fut : Option ℕ) (payload : ℕ) (r : FutureSt) (wnew : WorkerSt)
    (hInv : Inv s) (hws : s.workers = some ws)
    (hbusy : ws[i]? = some (.busy fut payload))
    (hnp : r ≠ .pending) (hwn : ∀ id, workerRefs id wnew = false)
    (sb : PoolState) (hq : sb.queue = s.queue)
    (hf : sb.futures = resolveFut s.futures fut r)
    (hwk : sb.workers = some (ws.set i wnew)) : Inv sb := by
  cases fut with
  | none =>
    intro id
    refine futOk_of_refCount sb s id ?_ ?_ (hInv id)
    · rw [refCount_eq sb (ws.set i wnew) id hwk, refCount_eq s ws id hws, hq]
      have hcnt := countP_set (workerRefs id) ws i _ wnew hbusy
      rw [hwn id] at hcnt
      have hbw : workerRefs id (WorkerSt.busy none payload) = false := rfl
      rw [hbw] at hcnt
      omega
    · rw [hf]
      rfl
  | some j =>
    obtain ⟨hpend, hwpos, hjlt⟩ := busy_fut_pending s ws i j payload hInv hws hbusy
    intro id
    by_cases hij : id = j
    · subst hij
      have hfr : sb.futures[id]? = some r := by
        rw [hf]
        unfold resolveFut
        exact List.getElem?_set_eq_of_lt _ hjlt
      refine futOk_of_some sb id r hfr (fun hc => absurd hc hnp) (fun _ => ?_)
      have hold : refCount s id = 1 :=
        futOk_pending_refCount s id hpend (hInv id)
      rw [refCount_eq s ws id hws] at hold
      rw [refCount_eq sb (ws.set i wnew) id hwk, hq]
      have hcnt := countP_set (workerRefs id) ws i _ wnew hbusy
      rw [hwn id] at hcnt
      have hbw : workerRefs id (WorkerSt.busy (some id) payload) = true := by
        simp [workerRefs]
      rw [hbw] at hcnt
      simp at hcnt
      omega
    · refine futOk_of_refCount sb s id ?_ ?_ (hInv id)
      · rw [refCount_eq sb (ws.set i wnew) id hwk, refCount_eq s ws id hws, hq]
        have hcnt := countP_set (workerRefs id) ws i _ wnew hbusy
        rw [hwn id] at hcnt
        have hbw : workerRefs id (WorkerSt.busy (some j) payload) = false := by
          simp only [workerRefs, decide_eq_false_iff_not]
          omega
        rw [hbw] at hcnt
        omega
      · rw [hf]
        unfold resolveFut
        exact List.getElem?_set_ne (fun hh => hij hh.symm)

/-- `start` preserves the ownership invariant: the fresh workers are all
idle and hold no references. -/
theorem inv_start (s s2 : PoolState) (hInv : Inv s)
    (hwn : s.workers = none)
    (hq : s2.queue = s.queue)
    (hwk : s2.workers = some (List.replicate s.numWorkers WorkerSt.idle))
    (hf : s2.futures = s.futures) : Inv s2 := by
  intro id
  refine futOk_of_refCount s2 s id ?_ (by rw [hf]) (hInv id)
  unfold refCount
  rw [hq, workerRefCount_some s2 _ id hwk, workerRefCount_none s id hwn]
  have hz : (List.replicate s.numWorkers WorkerSt.idle).countP (workerRefs id)
      = 0 := by
    simp [List.countP_replicate, workerRefs]
  rw [hz]

/-- Dequeuing a terminator retires the worker; no reference moves. -/
theorem inv_workerGet_term (s s2 : PoolState) (ws : List WorkerSt) (i : ℕ)
    (rest : List QItem) (hInv : Inv s)
    (hq0 : s.queue = .term :: rest) (hws : s.workers = some ws)
    (hidle : ws[i]? = some .idle)
    (hq : s2.queue = rest) (hwk : s2.workers = some (ws.set i .retired))
    (hf : s2.futures = s.futures) : Inv s2 := by
  intro id
  refine futOk_of_refCount s2 s id ?_ (by rw [hf]) (hInv id)
  unfold refCount
  rw [hq, workerRefCount_some s2 _ id hwk, workerRefCount_some s ws id hws,
    hq0, List.countP_cons]
  have hcnt := countP_set (workerRefs id) ws i .idle .retired hidle
  have h1 : (if workerRefs id WorkerSt.idle = true then (1 : ℕ) else 0) = 0 :=
    rfl
  have h2 : (if workerRefs id WorkerSt.retired = true then (1 : ℕ) else 0) = 0 :=
    rfl
  have h3 : (if itemRefs id QItem.term = true then (1 : ℕ) else 0) = 0 := rfl
  rw [h1, h2] at hcnt
  rw [h3]
  omega

/-- Dequeuing a real item moves its reference from the channel to the
dequeuing worker; the total reference count of every slot is unchanged. -/
theorem inv_workerGet_item (s s2 : PoolState) (ws : List WorkerSt) (i : ℕ)
    (fut : Option ℕ) (payload : ℕ) (rest : List QItem) (hInv : Inv s)
    (hq0 : s.queue = .item fut payload :: rest) (hws : s.workers = some ws)
    (hidle : ws[i]? = some .idle)
    (hq : s2.queue = rest)
    (hwk : s2.workers = some (ws.set i (.busy fut payload)))
    (hf : s2.futures = s.futures) : Inv s2 := by
  intro id
  refine futOk_of_refCount s2 s id ?_ (by rw [hf]) (hInv id)
  unfold refCount
  rw [hq, workerRefCount_some s2 _ id hwk, workerRefCount_some s ws id hws,
    hq0, List.countP_cons]
  have hcnt := countP_set (workerRefs id) ws i .idle (.busy fut payload) hidle
  have h1 : (if workerRefs id WorkerSt.idle = true then (1 : ℕ) else 0) = 0 :=
    rfl
  rw [h1] at hcnt
  rw [itemRefs_eq_workerRefs id fut payload]
  omega

/-- Enqueuing a terminator during `join` adds no reference. -/
theorem inv_joinPut (s s2 : PoolState) (hInv : Inv s)
    (hq : s2.queue = s.queue ++ [.term]) (hw : s2.workers = s.workers)
    (hf : s2.futures = s.futures) : Inv s2 := by
  intro id
  refine futOk_of_refCount s2 s id ?_ (by rw [hf]) (hInv id)
  rw [refCount_append_item s s2 QItem.term id hq hw]
  have h3 : (if itemRefs id QItem.term = true then (1 : ℕ) else 0) = 0 := rfl
  rw [h3]
  omega

/-- Releasing the worker-set handle after all workers completed drops no
reference: completed workers hold none. -/
theorem inv_release (s s2 : PoolState) (ws : List WorkerSt) (hInv : Inv s)
    (hws : s.workers = some ws) (hall : ws.all workerDone = true)
    (hq : s2.queue = s.queue) (hwk : s2.workers = none)
    (hf : s2.futures = s.futures) : Inv s2 := by
  intro id
  refine futOk_of_refCount s2 s id ?_ (by rw [hf]) (hInv id)
  unfold refCount
  rw [hq, workerRefCount_none s2 id hwk, workerRefCount_some s ws id hws,
    countP_workerDone_zero ws hall id]

/-- Every step of the system preserves the exactly-once ownership
invariant of the future arena. -/
theorem inv_step (s : PoolState) (a : Act) (sb : PoolState) (obs : Obs)
    (hInv : Inv s) (h : stepFn s a = some (sb, obs)) : Inv sb := by
  cases a with
  | push t1 t2 payload =>
    simp only [stepFn, push, pushEnqueue] at h
    split at h
    · exact Option.noConfusion h
    · split at h
      · split at h
        · cases h
          exact inv_of_parts _ s rfl rfl rfl hInv
        · split at h
          · exact Option.noConfusion h
          · cases h
            cases hrf : s.returnFutures with
            | false => exact inv_push_enqueue_false s _ payload hInv rfl rfl rfl
            | true => exact inv_push_enqueue_true s _ payload hInv rfl rfl rfl
      · split at h
        · exact Option.noConfusion h
        · cases h
          cases hrf : s.returnFutures with
          | false => exact inv_push_enqueue_false s _ payload hInv rfl rfl rfl
          | true => exact inv_push_enqueue_true s _ payload hInv rfl rfl rfl
  | start =>
    simp only [stepFn, start] at h
    split at h
    · rename_i hwn
      cases h
      exact inv_start s _ hInv hwn rfl rfl rfl
    · exact Option.noConfusion h
  | workerGet i =>
    simp only [stepFn, workerGet] at h
    split at h
    · exact Option.noConfusion h
    · rename_i ws2 hws2
      split at h
      · rename_i hidle
        split at h
        · exact Option.noConfusion h
        · rename_i rest hq0
          cases h
          exact inv_workerGet_term s _ ws2 i rest hInv hq0 hws2 hidle
            rfl rfl rfl
        · rename_i fut payload rest hq0
          cases h
          exact inv_workerGet_item s _ ws2 i fut payload rest hInv hq0 hws2
            hidle rfl rfl rfl
      · exact Option.noConfusion h
  | workerOk i v =>
    simp only [stepFn, workerOk] at h
    split at h
    · exact Option.noConfusion h
    · rename_i ws2 hws2
      split at h
      · rename_i fut payload hbusy2
        cases h
        exact inv_resolve s ws2 i fut payload (.done v) .idle hInv hws2 hbusy2
          (by simp) (fun id2 => rfl) _ rfl rfl rfl
      · exact Option.noConfusion h
  | workerErr i f =>
    simp only [stepFn, workerErr] at h
    split at h
    · exact Option.noConfusion h
    · split at h
      · exact Option.noConfusion h
      · rename_i ws2 hws2
        split at h
        · rename_i fut payload hbusy2
          cases h
          exact inv_resolve s ws2 i fut payload (.failed f) .idle hInv hws2
            hbusy2 (by simp) (fun id2 => rfl) _ rfl rfl rfl
        · exact Option.noConfusion h
  | workerSig i sg =>
    simp only [stepFn, workerSig] at h
    split at h
    · exact Option.noConfusion h
    · rename_i ws2 hws2
      split at h
      · rename_i fut payload hbusy2
        cases h
        exact inv_resolve s ws2 i fut payload (.failed (.signal sg))
          (.dead sg) hInv hws2 hbusy2 (by simp) (fun id2 => rfl) _ rfl rfl rfl
      · exact Option.noConfusion h
  | joinCall =>
    simp only [stepFn, joinCall] at h
    repeat' split at h
    all_goals try exact Option.noConfusion h
    all_goals cases h
    all_goals exact inv_of_parts _ s rfl rfl rfl hInv
  | joinPut =>
    simp only [stepFn, joinPut] at h
    split at h
    · split at h
      · exact Option.noConfusion h
      · cases h
        exact inv_joinPut s _ hInv rfl rfl rfl
    · exact Option.noConfusion h
  | joinFinish =>
    simp only [stepFn, joinFinish] at h
    split at h
    · split at h
      · exact Option.noConfusion h
      · rename_i ws2 hws2
        split at h
        · rename_i hall
          split at h
          · cases h
            exact inv_of_parts _ s rfl rfl rfl hInv
          · split at h
            · cases h
              exact inv_release s _ ws2 hInv hws2 hall rfl rfl rfl
            · cases h
              exact inv_release s _ ws2 hInv hws2 hall rfl rfl rfl
        · exact Option.noConfusion h
    · exact Option.noConfusion h

/-- Once a future is resolved, no step of the system ever changes that
slot again: the only writes to the arena are the fresh pending slot
appended by `push` and a worker resolving the pending future of its own
item. -/
theorem resolved_stable (s : PoolState) (a : Act) (sb : PoolState) (obs : Obs)
    (hInv : Inv s) (h : stepFn s a = some (sb, obs)) (id : ℕ) (r : FutureSt)
    (hr : s.futures[id]? = some r) (hnp : r ≠ .pending) :
    sb.futures[id]? = some r := by
  have hlen : id < s.futures.length := (List.getElem?_eq_some.mp hr).1
  cases a with
  | push t1 t2 payload =>
    simp only [stepFn, push, pushEnqueue] at h
    split at h
    · exact Option.noConfusion h
    · split at h
      · split at h
        · cases h
          exact hr
        · split at h
          · exact Option.noConfusion h
          · cases h
            cases hrf : s.returnFutures with
            | false => exact hr
            | true => exact (List.getElem?_append_left hlen).trans hr
      · split at h
        · exact Option.noConfusion h
        · cases h
          cases hrf : s.returnFutures with
          | false => exact hr
          | true => exact (List.getElem?_append_left hlen).trans hr
  | start =>
    simp only [stepFn, start] at h
    split at h
    · cases h
      exact hr
    · exact Option.noConfusion h
  | workerGet i =>
    simp only [stepFn, workerGet] at h
    repeat' split at h
    all_goals try exact Option.noConfusion h
    all_goals cases h
    all_goals exact hr
  | workerOk i v =>
    simp only [stepFn, workerOk] at h
    split at h
    · exact Option.noConfusion h
    · rename_i ws2 hws2
      split at h
      · rename_i fut payload hbusy2
        cases h
        cases fut with
        | none => exact hr
        | some j =>
          have hpend :=
            (busy_fut_pending s ws2 i j payload hInv hws2 hbusy2).1
          have hne : j ≠ id := by
            intro hh
            subst hh
            rw [hpend] at hr
            injection hr with hr2
            exact hnp hr2.symm
          exact (List.getElem?_set_ne hne).trans hr
      · exact Option.noConfusion h
  | workerErr i f =>
    simp only [stepFn, workerErr] at h
    split at h
    · exact Option.noConfusion h
    · split at h
      · exact Option.noConfusion h
      · rename_i ws2 hws2
        split at h
        · rename_i fut payload hbusy2
          cases h
          cases fut with
          | none => exact hr
          | some j =>
            have hpend :=
              (busy_fut_pending s ws2 i j payload hInv hws2 hbusy2).1
            have hne : j ≠ id := by
              intro hh
              subst hh
              rw [hpend] at hr
              injection hr with hr2
              exact hnp hr2.symm
            exact (List.getElem?_set_ne hne).trans hr
        · exact Option.noConfusion h
  | workerSig i sg =>
    simp only [stepFn, workerSig] at h
    split at h
    · exact Option.noConfusion h
    · rename_i ws2 hws2
      split at h
      · rename_i fut payload hbusy2
        cases h
        cases fut with
        | none => exact hr
        | some j =>
          have hpend :=
            (busy_fut_pending s ws2 i j payload hInv hws2 hbusy2).1
          have hne : j ≠ id := by
            intro hh
            subst hh
            rw [hpend] at hr
            injection hr with hr2
            exact hnp hr2.symm
          exact (List.getElem?_set_ne hne).trans hr
      · exact Option.noConfusion h
  | joinCall =>
    simp only [stepFn, joinCall] at h
    repeat' split at h
    all_goals try exact Option.noConfusion h
    all_goals cases h
    all_goals exact hr
  | joinPut =>
    simp only [stepFn, joinPut] at h
    repeat' split at h
    all_goals try exact Option.noConfusion h
    all_goals cases h
    all_goals exact hr
  | joinFinish =>
    simp only [stepFn, joinFinish] at h
    repeat' split at h
    all_goals try exact Option.noConfusion h
    all_goals cases h
    all_goals exact hr

/-- C5: with `return_futures` enabled, every completed push appends one
fresh pending future, returns it, and attaches it to the enqueued item;
with it disabled, push returns an absent handle and creates nothing.
Starting from construction the ownership invariant holds and is
preserved by every step; a resolved future is never written again (so
resolution happens at most once, never both ways); and the worker that
finishes an item resolves exactly its future, with the return value on
success and with the classified failure — timeout, task error or
unrecoverable signal — on failure. -/
theorem C5_result_handles :
    (∀ N L w rf rj, Inv (init N L w rf rj)) ∧
    (∀ s a sb obs, Inv s → stepFn s a = some (sb, obs) → Inv sb) ∧
    (∀ s t1 t2 payload sb obs, s.returnFutures = true →
      stepFn s (.push t1 t2 payload) = some (sb, obs) →
      obs = .pushRaised ∨
        (obs = .pushed (some s.futures.length) ∧
         sb.futures = s.futures ++ [.pending] ∧
         sb.queue = s.queue ++ [.item (some s.futures.length) payload])) ∧
    (∀ s t1 t2 payload sb obs, s.returnFutures = false →
      stepFn s (.push t1 t2 payload) = some (sb, obs) →
      sb.futures = s.futures ∧ (obs = .pushRaised ∨ obs = .pushed none)) ∧
    (∀ (s : PoolState) (a : Act) (sb : PoolState) (obs : Obs) (id : ℕ)
      (r : FutureSt), Inv s → stepFn s a = some (sb, obs) →
      s.futures[id]? = some r → r ≠ .pending → sb.futures[id]? = some r) ∧
    (∀ s i v sb obs ws j payload, Inv s → s.workers = some ws →
      ws[i]? = some (.busy (some j) payload) →
      stepFn s (.workerOk i v) = some (sb, obs) →
      s.futures[j]? = some .pending ∧ sb.futures[j]? = some (.done v)) ∧
    (∀ s i f sb obs ws j payload, Inv s → s.workers = some ws →
      ws[i]? = some (.busy (some j) payload) →
      stepFn s (.workerErr i f) = some (sb, obs) →
      sb.futures[j]? = some (.failed f)) ∧
    (∀ s i sg sb obs ws j payload, Inv s → s.workers = some ws →
      ws[i]? = some (.busy (some j) payload) →
      stepFn s (.workerSig i sg) = some (sb, obs) →
      sb.futures[j]? = some (.failed (.signal sg))) := by
  refine ⟨inv_init, inv_step, ?_, ?_,
    fun s a sb obs id r hI h hr hnp =>
      resolved_stable s a sb obs hI h id r hr hnp, ?_, ?_, ?_⟩
  · intro s t1 t2 payload sb obs hrf h
    simp only [stepFn, push, pushEnqueue] at h
    split at h
    · exact Option.noConfusion h
    · split at h
      · split at h
        · cases h
          exact Or.inl rfl
        · split at h
          · exact Option.noConfusion h
          · cases h
            refine Or.inr ⟨?_, ?_, ?_⟩ <;> simp [hrf]
      · split at h
        · exact Option.noConfusion h
        · cases h
          refine Or.inr ⟨?_, ?_, ?_⟩ <;> simp [hrf]
  · intro s t1 t2 payload sb obs hrf h
    simp only [stepFn, push, pushEnqueue] at h
    split at h
    · exact Option.noConfusion h
    · split at h
      · split at h
        · cases h
          exact ⟨rfl, Or.inl rfl⟩
        · split at h
          · exact Option.noConfusion h
          · cases h
            exact ⟨by simp [hrf], Or.inr (by simp [hrf])⟩
      · split at h
        · exact Option.noConfusion h
        · cases h
          exact ⟨by simp [hrf], Or.inr (by simp [hrf])⟩
  · intro s i v sb obs ws j payload hInv hws hbusy h
    obtain ⟨hpend, hwpos, hjlt⟩ := busy_fut_pending s ws i j payload hInv hws hbusy
    simp only [stepFn, workerOk] at h
    split at h
    · exact Option.noConfusion h
    · rename_i ws2 hws2
      rw [hws] at hws2
      injection hws2 with hws2
      subst hws2
      split at h
      · rename_i fut2 payload2 hbusy2
        rw [hbusy] at hbusy2
        injection hbusy2 with hbusy2
        injection hbusy2 with hfut hpay
        subst hfut
        cases h
        refine ⟨hpend, ?_⟩
        show (resolveFut s.futures (some j) (FutureSt.done v))[j]?
          = some (FutureSt.done v)
        unfold resolveFut
        exact List.getElem?_set_eq_of_lt _ hjlt
      · exact Option.noConfusion h
  · intro s i f sb obs ws j payload hInv hws hbusy h
    obtain ⟨hpend, hwpos, hjlt⟩ := busy_fut_pending s ws i j payload hInv hws hbusy
    simp only [stepFn, workerErr] at h
    split at h
    · exact Option.noConfusion h
    · split at h
      · exact Option.noConfusion h
      · rename_i ws2 hws2
        rw [hws] at hws2
        injection hws2 with hws2
        subst hws2
        split at h
        · rename_i fut2 payload2 hbusy2
          rw [hbusy] at hbusy2
          injection hbusy2 with hbusy2
          injection hbusy2 with hfut hpay
          subst hfut
          cases h
          show (resolveFut s.futures (some j) (FutureSt.failed f))[j]?
            = some (FutureSt.failed f)
          unfold resolveFut
          exact List.getElem?_set_eq_of_lt _ hjlt
        · exact Option.noConfusion h
  · intro s i sg sb obs ws j payload hInv hws hbusy h
    obtain ⟨hpend, hwpos, hjlt⟩ := busy_fut_pending s ws i j payload hInv hws hbusy
    simp only [stepFn, workerSig] at h
    split at h
    · exact Option.noConfusion h
    · rename_i ws2 hws2
      rw [hws] at hws2
      injection hws2 with hws2
      subst hws2
      split at h
      · rename_i fut2 payload2 hbusy2
        rw [hbusy] at hbusy2
        injection hbusy2 with hbusy2
        injection hbusy2 with hfut hpay
        subst hfut
        cases h
        show (resolveFut s.futures (some j)
            (FutureSt.failed (Failure.signal sg)))[j]?
          = some (FutureSt.failed (Failure.signal sg))
        unfold resolveFut
        exact List.getElem?_set_eq_of_lt _ hjlt
      · exact Option.noConfusion h

/-- C5, witness: the invariant holds for a fresh pool with futures
enabled and is preserved across a concrete first push, which creates the
pending future 0 attached to the enqueued item. -/
theorem C5_result_handles_witness :
    Inv (init 1 1 none true false) ∧
    Inv { init 1 1 none true false with
            firstPushDt := some 0
            futures := [FutureSt.pending]
            queue := [QItem.item (some 0) 4]
            totalQueued := 1 } :=
  ⟨C5_result_handles.1 1 1 none true false,
   C5_result_handles.2.1 (init 1 1 none true false) (.push 0 0 4)
     { init 1 1 none true false with
         firstPushDt := some 0
         futures := [FutureSt.pending]
         queue := [QItem.item (some 0) 4]
         totalQueued := 1 }
     (.pushed (some 0)) (inv_init 1 1 none true false) rfl⟩

/-- C2, witness: a concrete joined pool with one retired worker, a
recorded task failure and `raise_on_join` set. -/
theorem C2_join_aggregate_iff_witness :
    ({ init 1 1 none false true with
        workers := none
        exceptions := true
        ctrl := CtrlSt.idle } : PoolState).workers = none ∧
    (Obs.joinRaisedAggregate = Obs.joined ∨
      Obs.joinRaisedAggregate = Obs.joinRaisedAggregate) := by
  have h := C2_join_aggregate_iff
    { init 1 1 none false true with
        workers := some [WorkerSt.retired]
        exceptions := true
        ctrl := CtrlSt.joining 0 }
    [.retired] _ _ rfl rfl rfl
  exact ⟨h.1, h.2.2⟩

end AsyncPool
